import Mathlib

/-!
Shallow embedding of the snapMatch round engine (src/app/page.tsx).

The source is a single React component.  The domain logic embedded here:
symbol pool and difficulty table, Fisher-Yates shuffle, deck construction
(`makeDeck`), the reshuffle of unmatched tiles (`shuffleUnmatched`), the
`flip` command with its scheduled match/mismatch resolution, the one-second
clock, the time-limit and win effects, and `startGame`.

Randomness: each call of the source `shuffle` draws `Math.floor(Math.random()
* (i + 1))`, a uniform index in `[0, i]`.  We model one shuffle call by a
choice function `rand : Nat → Nat`; at loop index `i` the drawn index is
`rand i % (i + 1)`, which ranges over exactly the indices the source can
draw.  Callers thread independent choice functions to independent calls.

Scheduled timers: the `setTimeout` callbacks of `flip` close over the
render-time values of `revealed`, `matchedIds`, `moves` and the difficulty
config.  A pending resolution is therefore modelled as a `Pending` record
carrying those captured values; firing it applies the callback to the
current state.  `startGame` in the source does not clear these timeouts
(only the clock interval is cleared via the effect cleanup), so the
system-level `stepCmd` keeps the pending list across `start`.

Presentation-only pieces (markup, animation, `speed`, the level modal) are
out of scope, matching the spec's scope section.
-/

namespace SnapMatch

/-- A tile of the deck: `{ id, s }` in the source. -/
structure Tile where
  id : String
  s : String
deriving DecidableEq, Repr

/-- The symbol alphabet `SYMBOL_POOLS` of the source, in source order.
Note the glyph "✷" occurs twice (positions 14 and 19 of the source list). -/
def SYMBOL_POOLS : List String :=
  ["●", "■", "▲", "◆", "○", "□", "△", "◇", "▢", "✦",
   "✶", "✸", "✺", "✹", "✷", "✵", "✻", "✽", "✿", "✷"]

/-- The `shuffleOn` field of a difficulty: `"none"` or `"every3moves"`. -/
inductive ShuffleOn where
  | noShuffle
  | every3moves
deriving DecidableEq, Repr

/-- A difficulty profile.  The `speed` field of the source (a float used
only for animation pacing and timeout durations) is presentation-only and
not part of the domain model. -/
structure Config where
  cols : Nat
  total : Nat
  shuffleOn : ShuffleOn
  timeLimit : Nat
deriving DecidableEq, Repr

/-- The difficulty keys of the source `DIFFICULTIES` object. -/
inductive DiffKey where
  | easy
  | hard
deriving DecidableEq, Repr

/-- The `DIFFICULTIES` table of the source. -/
def DIFFICULTIES : DiffKey → Config
  | .easy => { cols := 4, total := 16, shuffleOn := .noShuffle, timeLimit := 60 }
  | .hard => { cols := 6, total := 36, shuffleOn := .every3moves, timeLimit := 180 }

/-- One step of the source shuffle loop: `[a[i], a[j]] = [a[j], a[i]]`.
Both indices are in range at every call site; out of range we return the
list unchanged. -/
def swap (a : List α) (i j : Nat) : List α :=
  match a[i]?, a[j]? with
  | some x, some y => (a.set i y).set j x
  | _, _ => a

/-- The loop of `shuffle`: `for (let i = a.length - 1; i > 0; i--)` with
`j = Math.floor(Math.random() * (i + 1))`, modelled by `rand i % (i + 1)`. -/
def fyLoop (rand : Nat → Nat) : Nat → List α → List α
  | 0, a => a
  | i + 1, a => fyLoop rand i (swap a (i + 1) (rand (i + 1) % (i + 2)))

/-- `shuffle` of the source: copy the array, then run the Fisher-Yates
loop from index `length - 1` down to `1`. -/
def shuffle (rand : Nat → Nat) (a : List α) : List α :=
  fyLoop rand (a.length - 1) a

/-- The loop of `ensureLength`: `while (out.length < count)
out.push(...shuffle(pool))`.  Each iteration `k` uses its own choice
function `rands k`.  The source loop terminates because the pool is
non-empty; we give the recursion `count + 1` iterations of fuel, which
suffices for any non-empty pool. -/
def ensureLoop (rands : Nat → Nat → Nat) (pool : List α) (count : Nat) :
    Nat → Nat → List α → List α
  | 0, _, acc => acc
  | fuel + 1, k, acc =>
    if acc.length < count then
      ensureLoop rands pool count fuel (k + 1) (acc ++ shuffle (rands k) pool)
    else acc

/-- `ensureLength` of the source: repeat independently reshuffled copies of
the pool until `count` elements are available, then `slice(0, count)`. -/
def ensureLength (rands : Nat → Nat → Nat) (pool : List α) (count : Nat) : List α :=
  (ensureLoop rands pool count (count + 1) 0 []).take count

/-- `makeDeck` of the source: choose `total / 2` symbols via `ensureLength`,
build two tiles per chosen symbol with ids `` `${s}-a-${i}` `` and
`` `${s}-b-${i}` `` (where `i` is the index in the chosen-symbol list), then
shuffle the whole tile list and `slice(0, total)`.  `r1` supplies the choice
functions of the `ensureLength` shuffles, `r2` those of the final shuffle. -/
def makeDeck (r1 : Nat → Nat → Nat) (r2 : Nat → Nat) (diff : DiffKey) : List Tile :=
  let cfg := DIFFICULTIES diff
  let total := cfg.total
  let pairCount := total / 2
  let symbols := ensureLength r1 SYMBOL_POOLS pairCount
  (shuffle r2 (symbols.enum.flatMap fun p =>
    [⟨p.2 ++ "-a-" ++ toString p.1, p.2⟩, ⟨p.2 ++ "-b-" ++ toString p.1, p.2⟩])).take total

/-- The engine state of one round: the React state hooks of the component
(`showLevelModal` is presentation-only and omitted; `showWinModal` and
`showLoseModal` record the win/loss signals). -/
structure RoundState where
  deck : List Tile
  revealed : List String
  matchedIds : List String
  moves : Nat
  running : Bool
  seconds : Nat
  lock : Bool
  showWin : Bool
  showLose : Bool
deriving DecidableEq, Repr

/-- A scheduled match/mismatch resolution (`window.setTimeout` in `flip`).
Besides the outcome it carries the values the callback closed over at the
render in which `flip` ran: `moves` before its increment, `revealed` before
the second id was appended, `matchedIds`, and the difficulty's
`shuffleOn`. -/
structure Pending where
  isMatch : Bool
  aId : String
  bId : String
  capMoves : Nat
  capRevealed : List String
  capMatched : List String
  capShuffleOn : ShuffleOn
deriving DecidableEq, Repr

/-- The re-interleaving loop of `shuffleUnmatched`: walk the cloned deck;
kept slots retain their tile, every other slot takes the next element of
the shuffled queue (`shuffledUnmatched[uIndex++]`).  At every source call
site the queue length equals the number of non-kept slots, so the
empty-queue branch (where the source would index past the array) is
unreachable; it keeps the original tile. -/
def refill (keep : Tile → Bool) : List Tile → List Tile → List Tile
  | [], _ => []
  | c :: cs, q =>
    if keep c then c :: refill keep cs q
    else
      match q with
      | [] => c :: refill keep cs []
      | x :: q2 => x :: refill keep cs q2

/-- `shuffleUnmatched` of the source, as a function of the deck it
re-permutes and of the `revealed` / `matchedIds` bindings visible to it —
the values of the render whose closure is being run (stale when invoked
from a resolution timeout). -/
def shuffleUnmatched (rand : Nat → Nat) (revealed matched : List String)
    (keepRevealed : Bool) (deck : List Tile) : List Tile :=
  if revealed.length > 0 then deck
  else
    let revealedSet := if keepRevealed then revealed else []
    let unmatched := deck.filter fun c =>
      !(matched.contains c.id) && !(revealedSet.contains c.id)
    let shuffledUnmatched := shuffle rand unmatched
    refill (fun c => matched.contains c.id ||
      (keepRevealed && revealedSet.contains c.id)) deck shuffledUnmatched

/-- `flip` of the source.  Returns `none` when the source would throw: in
the two-reveal branch `deck.find(...)!` asserts the lookup succeeds, and
an id absent from the deck makes `a.s` / `b.s` dereference `undefined`.
Otherwise returns the updated state and the scheduled resolution, if any. -/
def flip (diff : DiffKey) (s : RoundState) (cardId : String) :
    Option (RoundState × Option Pending) :=
  if s.lock then some (s, none)
  else if s.revealed.contains cardId then some (s, none)
  else if s.matchedIds.contains cardId then some (s, none)
  else if 2 ≤ s.revealed.length then some (s, none)
  else
    let s1 := if !s.running then { s with running := true } else s
    let next := s1.revealed ++ [cardId]
    let s2 := { s1 with revealed := next }
    if next.length = 2 then
      match s2.deck.find? (fun c => c.id == next.getD 0 ""),
            s2.deck.find? (fun c => c.id == next.getD 1 "") with
      | some a, some b =>
        some ({ s2 with lock := true, moves := s2.moves + 1 },
              some { isMatch := a.s == b.s, aId := a.id, bId := b.id,
                     capMoves := s.moves, capRevealed := s.revealed,
                     capMatched := s.matchedIds,
                     capShuffleOn := (DIFFICULTIES diff).shuffleOn })
      | _, _ => none
    else
      some (s2, none)

/-- Firing a scheduled resolution: the body of the `setTimeout` callbacks
of `flip`.  A match moves the two captured ids into `matchedIds`, clears
`revealed` and the lock, and — when the captured difficulty reshuffles
every third move and the captured move count says this was such a move —
invokes `shuffleUnmatched(true)` with the captured (stale) `revealed` and
`matchedIds` bindings on the current deck (the `setDeck` updater reads the
current deck).  A mismatch only clears `revealed` and the lock. -/
def fireResolution (rand : Nat → Nat) (p : Pending) (s : RoundState) : RoundState :=
  if p.isMatch then
    let s1 := { s with matchedIds := s.matchedIds ++ [p.aId, p.bId],
                       revealed := [], lock := false }
    if p.capShuffleOn = ShuffleOn.every3moves ∧ (p.capMoves + 1) % 3 = 0 then
      { s1 with deck := shuffleUnmatched rand p.capRevealed p.capMatched true s1.deck }
    else s1
  else
    { s with revealed := [], lock := false }

/-- The two `useEffect` watchers: the time-limit check (loss) and the
all-matched check (win).  Both guards are exactly the source conditions;
each sets `running` to `false` and raises its modal flag. -/
def applyEffects (diff : DiffKey) (s : RoundState) : RoundState :=
  let s1 := if (DIFFICULTIES diff).timeLimit ≤ s.seconds ∧ s.running then
      { s with running := false, showLose := true } else s
  if s1.matchedIds.length = s1.deck.length ∧ 0 < s1.deck.length then
    { s1 with running := false, showWin := true }
  else s1

/-- One firing of the clock interval.  The interval exists exactly while
`running` is true (the clock effect installs it on `running := true` and
its cleanup — or the loss/win effects — clear it), so a tick of a
non-running state does not happen: the state is unchanged.  A tick
increments `seconds` and then the effects run. -/
def tick (diff : DiffKey) (s : RoundState) : RoundState :=
  if s.running then applyEffects diff { s with seconds := s.seconds + 1 } else s

/-- The state `startGame` resets to, around a freshly built deck. -/
def freshRound (deck : List Tile) : RoundState :=
  { deck := deck, revealed := [], matchedIds := [], moves := 0,
    running := false, seconds := 0, lock := false,
    showWin := false, showLose := false }

/-- The whole component: current difficulty, round state, and the
resolution timeouts that have been scheduled but have not fired. -/
structure Sys where
  diff : DiffKey
  st : RoundState
  pendings : List Pending
deriving DecidableEq, Repr

/-- The commands the presentation layer can issue.  Commands that shuffle
carry the choice functions of their random draws. -/
inductive Cmd where
  | flipCmd (cardId : String)
  | fire (rand : Nat → Nat)
  | tickCmd
  | start (d : DiffKey) (r1 : Nat → Nat → Nat) (r2 : Nat → Nat)
  | reshuffle (rand : Nat → Nat)

/-- One command against the component.  Effects (`applyEffects`) run after
the state updates of flips, resolutions and ticks, as React runs the
watchers after each such render.  `start` models `startGame`: it replaces
the round state wholesale but does not cancel scheduled resolution
timeouts — the source never stores or clears them — so `pendings`
survives.  `reshuffle` is the UI button `shuffleUnmatched(true)`, invoked
with the current `revealed` / `matchedIds`. -/
def stepCmd (c : Cmd) (sys : Sys) : Option Sys :=
  match c with
  | .flipCmd cardId =>
    match flip sys.diff sys.st cardId with
    | none => none
    | some (s1, pOpt) =>
      some { sys with st := applyEffects sys.diff s1,
                      pendings := sys.pendings ++ pOpt.toList }
  | .fire rand =>
    match sys.pendings with
    | [] => some sys
    | p :: rest =>
      some { sys with st := applyEffects sys.diff (fireResolution rand p sys.st),
                      pendings := rest }
  | .tickCmd => some { sys with st := tick sys.diff sys.st }
  | .start d r1 r2 =>
    some { diff := d, st := freshRound (makeDeck r1 r2 d), pendings := sys.pendings }
  | .reshuffle rand =>
    some { sys with st := { sys.st with
      deck := shuffleUnmatched rand sys.st.revealed sys.st.matchedIds true sys.st.deck } }

/-- Run a command sequence; `none` as soon as a command faults. -/
def run (sys : Sys) : List Cmd → Option Sys
  | [] => some sys
  | c :: cs =>
    match stepCmd c sys with
    | none => none
    | some sys2 => run sys2 cs

/-- A freshly started game at difficulty `d`: what the first `startGame(d)`
from the level modal produces (no timers pending yet). -/
def initSys (d : DiffKey) (r1 : Nat → Nat → Nat) (r2 : Nat → Nat) : Sys :=
  { diff := d, st := freshRound (makeDeck r1 r2 d), pendings := [] }

/-- `true` on `start` commands; the in-round claims quantify over command
sequences without them. -/
def isStartCmd : Cmd → Bool
  | .start _ _ _ => true
  | _ => false

/-- Identity choice function: every draw picks `j = i`, so every swap is a
self-swap and the shuffle is the identity permutation.  Used for concrete
traces. -/
def idr : Nat → Nat := fun i => i

/-- Identity choice functions for `ensureLength`. -/
def idr2 : Nat → Nat → Nat := fun _ i => i

/-- A choice-function family under which the single `ensureLength` shuffle
moves both occurrences of "✷" into the first eight pool positions. -/
def dupChoices : Nat → Nat → Nat :=
  fun _ i => if i = 19 then 1 else if i = 14 then 2 else i

/-- A concrete pending match resolution: the pair "●-a-0" / "●-b-0" of an
easy round built with identity draws, completed as the first move. -/
def pendingW : Pending :=
  { isMatch := true, aId := "●-a-0", bId := "●-b-0", capMoves := 0,
    capRevealed := ["●-a-0"], capMatched := [],
    capShuffleOn := ShuffleOn.noShuffle }

/-- The concrete system holding `pendingW`: the state reached by flipping
"●-a-0" then "●-b-0" on a fresh easy round with identity draws. -/
def sysW : Sys :=
  { diff := .easy,
    st := { deck := makeDeck idr2 idr .easy, revealed := ["●-a-0", "●-b-0"],
            matchedIds := [], moves := 1, running := true, seconds := 0,
            lock := true, showWin := false, showLose := false },
    pendings := [pendingW] }

/-- The invariant a round reached without restarting maintains: at most one
resolution timeout is pending and only while the input is locked; a pending
resolution holds two distinct ids not yet matched; no revealed id is
matched. -/
def Inv (sys : Sys) : Prop :=
  (sys.pendings = [] ∨ (sys.st.lock = true ∧ ∃ p, sys.pendings = [p])) ∧
  (∀ p ∈ sys.pendings, p.aId ≠ p.bId ∧ p.aId ∉ sys.st.matchedIds ∧
      p.bId ∉ sys.st.matchedIds) ∧
  (∀ x ∈ sys.st.revealed, x ∉ sys.st.matchedIds)

/-! ### The shuffle is a permutation -/

theorem cons_set_perm {α : Type _} :
    ∀ (t : List α) (k : Nat) (hk : k < t.length) (x : α),
      (t[k] :: t.set k x).Perm (x :: t)
  | b :: t2, 0, _, x => List.Perm.swap x b t2
  | b :: t2, k + 1, hk, x => by
    have hk2 : k < t2.length := by simpa using hk
    have h1 : (b :: t2)[k + 1] = t2[k] := by simp
    have h2 : (b :: t2).set (k + 1) x = b :: t2.set k x := rfl
    rw [h1, h2]
    exact (List.Perm.swap b t2[k] (t2.set k x)).trans
      (((cons_set_perm t2 k hk2 x).cons b).trans (List.Perm.swap x b t2))

theorem set_set_perm {α : Type _} :
    ∀ (l : List α) (i j : Nat) (hi : i < l.length) (hj : j < l.length),
      ((l.set i l[j]).set j l[i]).Perm l
  | a :: t, 0, 0, _, _ => by simp
  | a :: t, 0, j + 1, _, hj => by
    have hj2 : j < t.length := by simpa using hj
    simpa using cons_set_perm t j hj2 a
  | a :: t, i + 1, 0, hi, _ => by
    have hi2 : i < t.length := by simpa using hi
    simpa using cons_set_perm t i hi2 a
  | a :: t, i + 1, j + 1, hi, hj => by
    have hi2 : i < t.length := by simpa using hi
    have hj2 : j < t.length := by simpa using hj
    simpa using (set_set_perm t i j hi2 hj2).cons a

theorem swap_perm {α : Type _} (a : List α) (i j : Nat) : (swap a i j).Perm a := by
  unfold swap
  split
  · next x y hx hy =>
    obtain ⟨hi, hxe⟩ := List.getElem?_eq_some_iff.mp hx
    obtain ⟨hj, hye⟩ := List.getElem?_eq_some_iff.mp hy
    subst hxe; subst hye
    exact set_set_perm a i j hi hj
  · exact List.Perm.refl a

theorem fyLoop_perm {α : Type _} (rand : Nat → Nat) :
    ∀ (n : Nat) (a : List α), (fyLoop rand n a).Perm a
  | 0, a => List.Perm.refl a
  | n + 1, a =>
    (fyLoop_perm rand n _).trans (swap_perm a (n + 1) (rand (n + 1) % (n + 2)))

theorem shuffle_perm {α : Type _} (rand : Nat → Nat) (a : List α) :
    (shuffle rand a).Perm a :=
  fyLoop_perm rand (a.length - 1) a

theorem shuffle_length {α : Type _} (rand : Nat → Nat) (a : List α) :
    (shuffle rand a).length = a.length :=
  (shuffle_perm rand a).length_eq

/-! ### ensureLength facts -/

theorem ensureLoop_subset {α : Type _} (rands : Nat → Nat → Nat) (pool : List α)
    (count : Nat) :
    ∀ (fuel k : Nat) (acc : List α) (x : α),
      x ∈ ensureLoop rands pool count fuel k acc → x ∈ acc ∨ x ∈ pool
  | 0, _, acc, x, hx => Or.inl hx
  | fuel + 1, k, acc, x, hx => by
    unfold ensureLoop at hx
    split at hx
    · rcases ensureLoop_subset rands pool count fuel (k + 1) _ x hx with h | h
      · rcases List.mem_append.mp h with h2 | h2
        · exact Or.inl h2
        · exact Or.inr (((shuffle_perm (rands k) pool).mem_iff).mp h2)
      · exact Or.inr h
    · exact Or.inl hx

theorem ensureLength_subset {α : Type _} (rands : Nat → Nat → Nat) (pool : List α)
    (count : Nat) (x : α) (hx : x ∈ ensureLength rands pool count) : x ∈ pool := by
  have hx2 : x ∈ ensureLoop rands pool count (count + 1) 0 [] :=
    List.take_subset _ _ hx
  rcases ensureLoop_subset rands pool count (count + 1) 0 [] x hx2 with h | h
  · cases h
  · exact h

theorem ensureLoop_length_ge {α : Type _} (rands : Nat → Nat → Nat) (pool : List α)
    (count : Nat) (hpool : 0 < pool.length) :
    ∀ (fuel k : Nat) (acc : List α),
      count ≤ acc.length + fuel * pool.length →
      count ≤ (ensureLoop rands pool count fuel k acc).length
  | 0, _, acc, h => by simpa using h
  | fuel + 1, k, acc, h => by
    unfold ensureLoop
    split
    · apply ensureLoop_length_ge rands pool count hpool fuel (k + 1)
      have : (acc ++ shuffle (rands k) pool).length = acc.length + pool.length := by
        simp [shuffle_length]
      rw [this]
      calc count ≤ acc.length + (fuel + 1) * pool.length := h
        _ = acc.length + pool.length + fuel * pool.length := by ring
    · omega

theorem ensureLength_length {α : Type _} (rands : Nat → Nat → Nat) (pool : List α)
    (count : Nat) (hpool : 0 < pool.length) :
    (ensureLength rands pool count).length = count := by
  have hge : count ≤ (ensureLoop rands pool count (count + 1) 0 []).length := by
    apply ensureLoop_length_ge rands pool count hpool
    have : count + 1 ≤ (count + 1) * pool.length :=
      Nat.le_mul_of_pos_right _ hpool
    omega
  simp [ensureLength]
  omega

/-! ### refill / shuffleUnmatched facts -/

theorem refill_length (keep : Tile → Bool) :
    ∀ (l q : List Tile), (refill keep l q).length = l.length
  | [], _ => rfl
  | c :: cs, q => by
    unfold refill
    split
    · simp [refill_length keep cs q]
    · cases q with
      | nil => simp [refill_length keep cs []]
      | cons x q2 => simp [refill_length keep cs q2]

theorem refill_keep_slot (keep : Tile → Bool) :
    ∀ (l q : List Tile) (i : Nat) (x : Tile),
      l[i]? = some x → keep x = true → (refill keep l q)[i]? = some x
  | [], _, i, x, hx, _ => by simp at hx
  | c :: cs, q, 0, x, hx, hk => by
    simp at hx
    subst hx
    unfold refill
    simp [hk]
  | c :: cs, q, i + 1, x, hx, hk => by
    simp at hx
    unfold refill
    split
    · simpa using refill_keep_slot keep cs q i x hx hk
    · cases q with
      | nil => simpa using refill_keep_slot keep cs [] i x hx hk
      | cons y q2 => simpa using refill_keep_slot keep cs q2 i x hx hk

theorem refill_filter_not_keep (keep : Tile → Bool) :
    ∀ (l q : List Tile),
      (∀ x ∈ q, keep x = false) →
      q.length = (l.filter fun c => !keep c).length →
      (refill keep l q).filter (fun c => !keep c) = q
  | [], q, _, hlen => by
    simp at hlen
    simp [refill, hlen]
  | c :: cs, q, hq, hlen => by
    unfold refill
    split
    · next hkc =>
      rw [List.filter_cons_of_neg (by simp [hkc])]
      rw [List.filter_cons_of_neg (by simp [hkc])] at hlen
      exact refill_filter_not_keep keep cs q hq hlen
    · next hkc =>
      have hkc2 : keep c = false := by
        cases h : keep c with
        | false => rfl
        | true => exact absurd h hkc
      rw [List.filter_cons_of_pos (by simp [hkc2])] at hlen
      cases q with
      | nil => simp at hlen
      | cons x q2 =>
        have hx : keep x = false := hq x (List.mem_cons_self x q2)
        rw [List.filter_cons_of_pos (by simp [hx])]
        have hq2 : ∀ y ∈ q2, keep y = false := fun y hy =>
          hq y (List.mem_cons_of_mem x hy)
        have hlen2 : q2.length = (cs.filter fun c => !keep c).length := by
          simpa using hlen
        rw [refill_filter_not_keep keep cs q2 hq2 hlen2]

theorem shuffleUnmatched_of_ne_nil (rand : Nat → Nat)
    (revealed matched : List String) (keepRevealed : Bool) (deck : List Tile)
    (h : revealed ≠ []) :
    shuffleUnmatched rand revealed matched keepRevealed deck = deck := by
  unfold shuffleUnmatched
  have : 0 < revealed.length := List.length_pos.mpr h
  simp [this]

/-- With no tile revealed, `shuffleUnmatched` reduces to a `refill` of the
matched-only kept slots from a shuffle of the unmatched tiles. -/
theorem shuffleUnmatched_nil_eq (rand : Nat → Nat) (matched : List String)
    (keepRevealed : Bool) (deck : List Tile) :
    shuffleUnmatched rand [] matched keepRevealed deck =
      refill (fun c => matched.contains c.id) deck
        (shuffle rand (deck.filter fun c => !(matched.contains c.id))) := by
  unfold shuffleUnmatched
  have hset : (if keepRevealed then ([] : List String) else []) = [] := by
    cases keepRevealed <;> rfl
  simp only [List.length_nil, gt_iff_lt, Nat.lt_irrefl, if_false, hset]
  have hpred : (fun c : Tile => matched.contains c.id ||
      (keepRevealed && List.contains [] c.id)) =
      fun c : Tile => matched.contains c.id := by
    funext c
    simp [List.contains]
  have hmov : (fun c : Tile => !(matched.contains c.id) &&
      !(List.contains [] c.id)) = fun c : Tile => !(matched.contains c.id) := by
    funext c
    simp [List.contains]
  rw [hpred, hmov]

/-! ### Claim C9 -/

/-- C9: whenever `revealedIds` is non-empty, `shuffleUnmatched` is a
complete no-op regardless of its `keepRevealed` argument — the guard
`if (revealed.length > 0) return` fires before anything is read — and in
particular the on-demand UI reshuffle leaves the whole component state
unchanged while a tile is face up. -/
theorem shuffleUnmatched_noop_of_revealed (rand : Nat → Nat) :
    (∀ (revealed matched : List String) (keepRevealed : Bool) (deck : List Tile),
        revealed ≠ [] →
        shuffleUnmatched rand revealed matched keepRevealed deck = deck) ∧
    (∀ sys : Sys, sys.st.revealed ≠ [] →
        stepCmd (Cmd.reshuffle rand) sys = some sys) := by
  constructor
  · intro revealed matched keepRevealed deck h
    exact shuffleUnmatched_of_ne_nil rand revealed matched keepRevealed deck h
  · intro sys h
    simp [stepCmd, shuffleUnmatched_of_ne_nil rand _ _ _ _ h]

/-- Witness for C9 at a concrete face-up state. -/
theorem shuffleUnmatched_noop_of_revealed_witness :
    shuffleUnmatched idr ["y-1"] ["z-2"] false [⟨"y-1", "●"⟩, ⟨"w-3", "■"⟩] =
      [⟨"y-1", "●"⟩, ⟨"w-3", "■"⟩] ∧
    stepCmd (Cmd.reshuffle idr)
      { diff := .easy, st := { freshRound [⟨"y-1", "●"⟩] with revealed := ["y-1"] },
        pendings := [] } =
      some { diff := .easy, st := { freshRound [⟨"y-1", "●"⟩] with revealed := ["y-1"] },
             pendings := [] } :=
  ⟨(shuffleUnmatched_noop_of_revealed idr).1 ["y-1"] ["z-2"] false _ (by decide),
   (shuffleUnmatched_noop_of_revealed idr).2 _ (by decide)⟩

/-! ### Claim C6 -/

/-- C6: when `shuffleUnmatched` does re-permute (no tile is revealed, the
only case in which it changes anything), it is a pure permutation of the
unmatched slots: the slot count is unchanged, every slot holding a matched
tile holds the same tile afterwards, and the ids occupying the non-matched
slots are a permutation (hence the same multiset) of those before. -/
theorem shuffleUnmatched_permutes_subset (rand : Nat → Nat)
    (matched : List String) (keepRevealed : Bool) (deck : List Tile) :
    (shuffleUnmatched rand [] matched keepRevealed deck).length = deck.length ∧
    (∀ (i : Nat) (x : Tile), deck[i]? = some x → matched.contains x.id = true →
      (shuffleUnmatched rand [] matched keepRevealed deck)[i]? = some x) ∧
    (((shuffleUnmatched rand [] matched keepRevealed deck).filter
        (fun c => !(matched.contains c.id))).map Tile.id).Perm
      (((deck.filter (fun c => !(matched.contains c.id)))).map Tile.id) := by
  rw [shuffleUnmatched_nil_eq]
  set keep : Tile → Bool := fun c => matched.contains c.id with hkeep
  set q : List Tile := shuffle rand (deck.filter fun c => !(matched.contains c.id))
    with hq
  have hqperm : q.Perm (deck.filter fun c => !(matched.contains c.id)) :=
    shuffle_perm rand _
  refine ⟨refill_length keep deck q, ?_, ?_⟩
  · intro i x hx hk
    exact refill_keep_slot keep deck q i x hx hk
  · have hqf : ∀ x ∈ q, keep x = false := by
      intro x hx
      have hx2 : x ∈ deck.filter fun c => !(matched.contains c.id) :=
        hqperm.mem_iff.mp hx
      have := (List.mem_filter.mp hx2).2
      simpa [hkeep] using this
    have hlen : q.length = (deck.filter fun c => !keep c).length := by
      rw [hq, shuffle_length]
    rw [refill_filter_not_keep keep deck q hqf hlen]
    exact hqperm.map Tile.id

/-- Witness for C6: a concrete two-tile deck with the first tile matched;
the matched slot is untouched. -/
theorem shuffleUnmatched_permutes_subset_witness :
    (shuffleUnmatched idr [] ["a-0"] true
      [⟨"a-0", "●"⟩, ⟨"b-1", "■"⟩])[0]? = some ⟨"a-0", "●"⟩ :=
  (shuffleUnmatched_permutes_subset idr ["a-0"] true
      [⟨"a-0", "●"⟩, ⟨"b-1", "■"⟩]).2.1 0 ⟨"a-0", "●"⟩ (by decide) (by decide)

/-! ### flip characterization -/

/-- Any of the four guards makes `flip` return the state unchanged with no
scheduled resolution. -/
theorem flip_noop_of_guard (d : DiffKey) (s : RoundState) (cardId : String)
    (hg : s.lock = true ∨ s.revealed.contains cardId = true ∨
      s.matchedIds.contains cardId = true ∨ 2 ≤ s.revealed.length) :
    flip d s cardId = some (s, none) := by
  unfold flip
  by_cases h1 : s.lock = true
  · simp [h1]
  rw [if_neg h1]
  by_cases h2 : cardId ∈ s.revealed
  · simp [h2]
  by_cases h3 : cardId ∈ s.matchedIds
  · simp [h2, h3]
  have h4 : 2 ≤ s.revealed.length := by
    rcases hg with hg | hg | hg | hg
    · exact absurd hg h1
    · exact absurd hg (by simpa using h2)
    · exact absurd hg (by simpa using h3)
    · exact hg
  simp [h2, h3, h4]

/-- Complete case analysis of a successful `flip`: a guarded no-op, a first
reveal, or a completed pair with its scheduled resolution. -/
theorem flip_inversion (d : DiffKey) (s : RoundState) (cardId : String)
    (out : RoundState × Option Pending) (h : flip d s cardId = some out) :
    (out = (s, none) ∧ (s.lock = true ∨ s.revealed.contains cardId = true ∨
      s.matchedIds.contains cardId = true ∨ 2 ≤ s.revealed.length)) ∨
    (s.lock = false ∧ s.revealed = [] ∧ s.matchedIds.contains cardId = false ∧
      out = ({ s with revealed := [cardId], running := true }, none)) ∨
    (∃ r0 a b, s.lock = false ∧ s.revealed = [r0] ∧ cardId ≠ r0 ∧
      s.matchedIds.contains cardId = false ∧
      s.deck.find? (fun c => c.id == r0) = some a ∧
      s.deck.find? (fun c => c.id == cardId) = some b ∧
      out = ({ s with revealed := [r0, cardId], running := true, lock := true,
                      moves := s.moves + 1 },
             some { isMatch := a.s == b.s, aId := a.id, bId := b.id,
                    capMoves := s.moves, capRevealed := [r0],
                    capMatched := s.matchedIds,
                    capShuffleOn := (DIFFICULTIES d).shuffleOn })) := by
  obtain ⟨deck, revealed, matched, moves, running, seconds, lock, sw, sl⟩ := s
  cases lock with
  | true =>
    left
    refine ⟨?_, Or.inl rfl⟩
    unfold flip at h
    simp at h
    simp [h]
  | false =>
  by_cases h2 : cardId ∈ revealed
  · left
    refine ⟨?_, Or.inr (Or.inl (by simpa using h2))⟩
    unfold flip at h
    simp [h2] at h
    simp [h]
  by_cases h3 : cardId ∈ matched
  · left
    refine ⟨?_, Or.inr (Or.inr (Or.inl (by simpa using h3)))⟩
    unfold flip at h
    simp [h2, h3] at h
    simp [h]
  have h3f : matched.contains cardId = false := by simpa using h3
  match revealed, h2 with
  | [], h2 =>
    right; left
    refine ⟨rfl, rfl, h3f, ?_⟩
    unfold flip at h
    cases running <;> simp [h3] at h <;> simp [h.symm]
  | [r0], h2 =>
    right; right
    have hne : cardId ≠ r0 := fun he => h2 (by simp [he])
    unfold flip at h
    cases running with
    | false =>
      simp [h2, h3] at h
      rw [if_neg hne] at h
      rcases hfa : List.find? (fun c => c.id == r0) deck with _ | a <;>
        rcases hfb : List.find? (fun c => c.id == cardId) deck with _ | b <;>
        rw [hfa, hfb] at h <;> simp at h
      exact ⟨r0, a, b, rfl, rfl, hne, h3f, hfa, hfb, by simp [h.symm]⟩
    | true =>
      simp [h2, h3] at h
      rw [if_neg hne] at h
      rcases hfa : List.find? (fun c => c.id == r0) deck with _ | a <;>
        rcases hfb : List.find? (fun c => c.id == cardId) deck with _ | b <;>
        rw [hfa, hfb] at h <;> simp at h
      exact ⟨r0, a, b, rfl, rfl, hne, h3f, hfa, hfb, by simp [h.symm]⟩
  | r0 :: r1 :: rest, h2 =>
    left
    refine ⟨?_, Or.inr (Or.inr (Or.inr (by simp)))⟩
    unfold flip at h
    cases running <;> simp [h2, h3] at h <;> simp [h.symm]

/-- `flip` cannot fault when the flipped id and every currently revealed id
are ids of tiles of the deck: both `deck.find(...)!` lookups succeed. -/
theorem flip_isSome (d : DiffKey) (s : RoundState) (cardId : String)
    (hcard : cardId ∈ s.deck.map Tile.id)
    (hrev : ∀ x ∈ s.revealed, x ∈ s.deck.map Tile.id) :
    (flip d s cardId).isSome = true := by
  have hfind : ∀ x ∈ s.deck.map Tile.id,
      (s.deck.find? (fun c => c.id == x)).isSome = true := by
    intro x hx
    obtain ⟨c, hc, hcx⟩ := List.mem_map.mp hx
    exact List.find?_isSome.mpr ⟨c, hc, by simp [hcx]⟩
  obtain ⟨deck, revealed, matched, moves, running, seconds, lock, sw, sl⟩ := s
  cases lock with
  | true => simp [flip]
  | false =>
  by_cases h2 : cardId ∈ revealed
  · unfold flip
    simp [h2]
  by_cases h3 : cardId ∈ matched
  · unfold flip
    simp [h2, h3]
  match revealed, h2, hrev with
  | [], h2, hrev =>
    unfold flip
    cases running <;> simp [h2, h3]
  | [r0], h2, hrev =>
    have hne : cardId ≠ r0 := fun he => h2 (by simp [he])
    have hfa := hfind r0 (hrev r0 (by simp))
    have hfb := hfind cardId hcard
    obtain ⟨a, ha⟩ := Option.isSome_iff_exists.mp hfa
    obtain ⟨b, hb⟩ := Option.isSome_iff_exists.mp hfb
    unfold flip
    cases running <;> simp [h2, h3] <;> rw [if_neg hne] <;> rw [ha, hb] <;> rfl
  | r0 :: r1 :: rest, h2, hrev =>
    unfold flip
    cases running <;> simp [h2, h3]

/-- A resolution whose captured `revealed` binding is non-empty can never
change the deck: the reshuffle call inside it is guarded out. -/
theorem fireResolution_deck_of_capRevealed_ne (rand : Nat → Nat) (p : Pending)
    (st : RoundState) (hne : p.capRevealed ≠ []) :
    (fireResolution rand p st).deck = st.deck := by
  unfold fireResolution
  split
  · split
    · simp [shuffleUnmatched_of_ne_nil rand p.capRevealed p.capMatched true _ hne]
    · rfl
  · rfl

/-! ### Claim C4 -/

/-- C4: the `OnEveryThirdMove` reshuffle never takes effect.  Every pending
resolution created by `flip` captured a `revealed` binding of length one
(the first tile of the pair was face up in the render that scheduled the
timeout), so the `shuffleUnmatched(true)` call inside the resolution is
always stopped by its `revealed.length > 0` guard: firing any flip-created
resolution leaves the deck of any state unchanged — the claim that the 3rd,
6th, 9th... matching move actually permutes unmatched tile positions is
false of the code. -/
theorem every3_reshuffle_never_takes_effect (d : DiffKey) (s : RoundState)
    (cardId : String) (s2 : RoundState) (p : Pending)
    (hflip : flip d s cardId = some (s2, some p)) :
    ∀ (rand : Nat → Nat) (st : RoundState),
      (fireResolution rand p st).deck = st.deck := by
  rcases flip_inversion d s cardId (s2, some p) hflip with
    ⟨he, _⟩ | ⟨_, _, _, he⟩ | ⟨r0, a, b, _, _, _, _, _, _, he⟩
  · simp at he
  · simp at he
  · have hp : p.capRevealed = [r0] := by
      rw [Prod.mk.injEq] at he
      obtain ⟨_, hp2⟩ := he
      simp only [Option.some.injEq] at hp2
      rw [hp2]
    intro rand st
    exact fireResolution_deck_of_capRevealed_ne rand p st (by simp [hp])

set_option maxRecDepth 8000 in
/-- Witness for C4: the resolution of the third matching move of a hard
round (captured moves 2, so `(moves + 1) % 3 = 0`) leaves the deck
untouched. -/
theorem every3_reshuffle_never_takes_effect_witness :
    (fireResolution idr
      { isMatch := true, aId := "●-a-0", bId := "●-b-0", capMoves := 2,
        capRevealed := ["●-a-0"], capMatched := [],
        capShuffleOn := ShuffleOn.every3moves }
      (freshRound (makeDeck idr2 idr .hard))).deck =
    (freshRound (makeDeck idr2 idr .hard)).deck :=
  every3_reshuffle_never_takes_effect .hard
    { freshRound (makeDeck idr2 idr .hard) with
      revealed := ["●-a-0"], running := true, moves := 2 }
    "●-b-0"
    { freshRound (makeDeck idr2 idr .hard) with
      revealed := ["●-a-0", "●-b-0"], running := true, moves := 3, lock := true }
    { isMatch := true, aId := "●-a-0", bId := "●-b-0", capMoves := 2,
      capRevealed := ["●-a-0"], capMatched := [],
      capShuffleOn := ShuffleOn.every3moves }
    (by decide) idr (freshRound (makeDeck idr2 idr .hard))

/-! ### applyEffects only touches running and the modal flags -/

theorem applyEffects_revealed (d : DiffKey) (s : RoundState) :
    (applyEffects d s).revealed = s.revealed := by
  unfold applyEffects
  dsimp only
  split <;> split <;> rfl

theorem applyEffects_matchedIds (d : DiffKey) (s : RoundState) :
    (applyEffects d s).matchedIds = s.matchedIds := by
  unfold applyEffects
  dsimp only
  split <;> split <;> rfl

theorem applyEffects_lock (d : DiffKey) (s : RoundState) :
    (applyEffects d s).lock = s.lock := by
  unfold applyEffects
  dsimp only
  split <;> split <;> rfl

theorem applyEffects_deck (d : DiffKey) (s : RoundState) :
    (applyEffects d s).deck = s.deck := by
  unfold applyEffects
  dsimp only
  split <;> split <;> rfl

theorem applyEffects_seconds (d : DiffKey) (s : RoundState) :
    (applyEffects d s).seconds = s.seconds := by
  unfold applyEffects
  dsimp only
  split <;> split <;> rfl

theorem applyEffects_moves (d : DiffKey) (s : RoundState) :
    (applyEffects d s).moves = s.moves := by
  unfold applyEffects
  dsimp only
  split <;> split <;> rfl

/-! ### Claim C3 -/

set_option maxRecDepth 8000 in
/-- C3: `startGame` does not cancel a pending resolution timeout.  Concrete
trace: flip a matching pair on an easy round, restart before the resolution
fires, then let the stale timeout fire — it writes the discarded round's
two tile ids into the fresh round's `matchedIds` (a round with zero moves
and zero seconds), the exact "zombie callback" the spec requires to be
impossible. -/
theorem stale_resolution_mutates_new_round :
    (run (initSys .easy idr2 idr)
      [Cmd.flipCmd "●-a-0", Cmd.flipCmd "●-b-0", Cmd.start .easy idr2 idr,
       Cmd.fire idr]).map
      (fun sys => (sys.st.matchedIds, sys.st.moves, sys.st.seconds)) =
    some (["●-a-0", "●-b-0"], 0, 0) := by decide

/-! ### Claim C1 -/

/-- C1 counterexample: `flip` can fault.  On a freshly started easy round,
reveal a real tile and then flip an id absent from the deck: the second
`deck.find(...)!` lookup fails and the source dereferences `undefined`
(modelled as `none`) — `flip` is not total on arbitrary strings, contrary
to the claim. -/
theorem flip_unknown_id_faults :
    run (initSys .easy idr2 idr) [Cmd.flipCmd "●-a-0", Cmd.flipCmd "zzz"] =
      none := by decide

/-- C1 (amended): `flip` never faults and is either a no-op or a normal
reveal, provided the flipped id and every currently revealed id are ids of
deck tiles (always true for flips coming from the UI, whose only caller
passes ids of rendered tiles). -/
theorem flip_total_on_deck_ids (d : DiffKey) (s : RoundState) (cardId : String)
    (hcard : cardId ∈ s.deck.map Tile.id)
    (hrev : ∀ x ∈ s.revealed, x ∈ s.deck.map Tile.id) :
    ∃ out, flip d s cardId = some out ∧
      (out = (s, none) ∨ out.1.revealed = s.revealed ++ [cardId]) := by
  obtain ⟨out, hout⟩ := Option.isSome_iff_exists.mp (flip_isSome d s cardId hcard hrev)
  refine ⟨out, hout, ?_⟩
  rcases flip_inversion d s cardId out hout with
    ⟨he, _⟩ | ⟨_, hrev0, _, he⟩ | ⟨r0, a, b, _, hrev1, _, _, _, _, he⟩
  · exact Or.inl he
  · right
    rw [he, hrev0]
    rfl
  · right
    rw [he, hrev1]
    rfl

/-- Witness for C1 (amended) at the first flip of a concrete easy round. -/
theorem flip_total_on_deck_ids_witness :
    ∃ out, flip .easy (freshRound (makeDeck idr2 idr .easy)) "●-a-0" = some out ∧
      (out = (freshRound (makeDeck idr2 idr .easy), none) ∨
       out.1.revealed = (freshRound (makeDeck idr2 idr .easy)).revealed ++ ["●-a-0"]) :=
  flip_total_on_deck_ids .easy (freshRound (makeDeck idr2 idr .easy)) "●-a-0"
    (by decide) (by intro x hx; simp [freshRound] at hx)

/-! ### Claim C5 -/

/-- A successful `flip` never pushes `revealed` beyond two entries. -/
theorem flip_revealed_le_two (d : DiffKey) (s : RoundState) (cardId : String)
    (out : RoundState × Option Pending) (h : flip d s cardId = some out)
    (hs : s.revealed.length ≤ 2) : out.1.revealed.length ≤ 2 := by
  rcases flip_inversion d s cardId out h with
    ⟨he, _⟩ | ⟨_, _, _, he⟩ | ⟨r0, a, b, _, _, _, _, _, _, he⟩ <;> rw [he] <;> simp
  exact hs

/-- `revealed` bound along a flips-only run. -/
theorem run_flips_revealed_le_two (d : DiffKey) :
    ∀ (ids : List String) (sys sys2 : Sys),
      run sys (ids.map Cmd.flipCmd) = some sys2 →
      sys.st.revealed.length ≤ 2 → sys2.st.revealed.length ≤ 2
  | [], sys, sys2, h, hs => by
    simp [run] at h
    rw [← h]
    exact hs
  | cardId :: rest, sys, sys2, h, hs => by
    simp only [List.map_cons, run] at h
    rcases hstep : stepCmd (Cmd.flipCmd cardId) sys with _ | sys1
    · rw [hstep] at h
      simp at h
    · rw [hstep] at h
      simp only [stepCmd] at hstep
      rcases hflip : flip sys.diff sys.st cardId with _ | out
      · rw [hflip] at hstep
        simp at hstep
      · rw [hflip] at hstep
        simp only [Option.some.injEq] at hstep
        have hle : sys1.st.revealed.length ≤ 2 := by
          rw [← hstep]
          simpa [applyEffects_revealed] using
            flip_revealed_le_two sys.diff sys.st cardId out hflip hs
        exact run_flips_revealed_le_two d rest sys1 sys2 h hle

/-- C5: along any sequence of flip commands from a freshly started round,
`revealedIds` never holds more than two ids; moreover a flip while the
input is locked, of an already revealed or already matched tile, or while
two tiles are already revealed, leaves the state unchanged and schedules
nothing. -/
theorem revealed_le_two (d : DiffKey) (r1 : Nat → Nat → Nat) (r2 : Nat → Nat)
    (ids : List String) (sys : Sys)
    (hrun : run (initSys d r1 r2) (ids.map Cmd.flipCmd) = some sys) :
    sys.st.revealed.length ≤ 2 ∧
    (∀ (d2 : DiffKey) (s : RoundState) (cardId : String),
      s.lock = true ∨ s.revealed.contains cardId = true ∨
        s.matchedIds.contains cardId = true ∨ 2 ≤ s.revealed.length →
      flip d2 s cardId = some (s, none)) :=
  ⟨run_flips_revealed_le_two d ids (initSys d r1 r2) sys hrun (by simp [initSys, freshRound]),
   fun d2 s cardId hg => flip_noop_of_guard d2 s cardId hg⟩

/-- Witness for C5: the empty flip sequence on a concrete round, and the
locked-state no-op at a concrete locked state. -/
theorem revealed_le_two_witness :
    (initSys .easy idr2 idr).st.revealed.length ≤ 2 ∧
    flip .easy { freshRound [] with lock := true } "z" =
      some ({ freshRound [] with lock := true }, none) :=
  ⟨(revealed_le_two .easy idr2 idr [] (initSys .easy idr2 idr) rfl).1,
   (revealed_le_two .easy idr2 idr [] (initSys .easy idr2 idr) rfl).2 .easy
     { freshRound [] with lock := true } "z" (Or.inl rfl)⟩

/-! ### Claim C8 -/

/-- A non-running state has no live interval: a tick does not happen. -/
theorem tick_not_running (d : DiffKey) (s : RoundState) (h : s.running = false) :
    tick d s = s := by
  unfold tick
  simp [h]

/-- C8: a tick that takes `elapsedSeconds` to (or past) the time limit of a
running round increments the clock one last time, stops the round
(`isRunning` becomes false) and raises the loss signal; every further tick
is the identity — the clock is dead and the loss can not be signalled a
second time — until a new round replaces the state. -/
theorem time_limit_stops_clock (d : DiffKey) (s : RoundState)
    (hrun : s.running = true)
    (hlim : (DIFFICULTIES d).timeLimit ≤ s.seconds + 1) :
    (tick d s).seconds = s.seconds + 1 ∧ (tick d s).running = false ∧
    (tick d s).showLose = true ∧
    ∀ n : Nat, (tick d)^[n] (tick d s) = tick d s := by
  have hs : tick d s = applyEffects d { s with seconds := s.seconds + 1 } := by
    unfold tick
    simp [hrun]
  have key : (tick d s).seconds = s.seconds + 1 ∧ (tick d s).running = false ∧
      (tick d s).showLose = true := by
    rw [hs]
    unfold applyEffects
    dsimp only
    simp only [hlim, hrun, and_self, if_true, ite_true, true_and, and_true]
    split <;> simp
  exact ⟨key.1, key.2.1, key.2.2,
    fun n => Function.iterate_fixed (tick_not_running d (tick d s) key.2.1) n⟩

/-- Witness for C8: one second before the limit on a concrete running
round. -/
theorem time_limit_stops_clock_witness :
    (tick .easy
      { freshRound [⟨"x-a-0", "●"⟩] with running := true, seconds := 59 }).seconds
        = 60 ∧
    (tick .easy
      { freshRound [⟨"x-a-0", "●"⟩] with running := true, seconds := 59 }).running
        = false ∧
    (tick .easy
      { freshRound [⟨"x-a-0", "●"⟩] with running := true, seconds := 59 }).showLose
        = true ∧
    (tick .easy)^[3]
      (tick .easy
        { freshRound [⟨"x-a-0", "●"⟩] with running := true, seconds := 59 }) =
      tick .easy
        { freshRound [⟨"x-a-0", "●"⟩] with running := true, seconds := 59 } :=
  have h := time_limit_stops_clock .easy
    { freshRound [⟨"x-a-0", "●"⟩] with running := true, seconds := 59 }
    rfl (by decide)
  ⟨h.1, h.2.1, h.2.2.1, h.2.2.2 3⟩

/-! ### Claim C2 -/

/-- Mapping the symbol over the two-tiles-per-symbol construction recovers
each chosen symbol twice, in order. -/
theorem map_s_pairs :
    ∀ (sy : List String) (n : Nat),
      (((sy.enumFrom n).flatMap fun p =>
        [Tile.mk (p.2 ++ "-a-" ++ toString p.1) p.2,
         Tile.mk (p.2 ++ "-b-" ++ toString p.1) p.2]).map Tile.s) =
      sy.flatMap fun sym => [sym, sym]
  | [], _ => rfl
  | sym :: tail, n => by
    simp only [List.enumFrom, List.flatMap_cons, List.map_append]
    rw [map_s_pairs tail (n + 1)]
    rfl

/-- `map_s_pairs` at the `enum` entry point. -/
theorem map_s_pairs_enum (sy : List String) :
    ((sy.enum.flatMap fun p =>
      [Tile.mk (p.2 ++ "-a-" ++ toString p.1) p.2,
       Tile.mk (p.2 ++ "-b-" ++ toString p.1) p.2]).map Tile.s) =
    sy.flatMap fun sym => [sym, sym] :=
  map_s_pairs sy 0

/-- The two-tiles-per-symbol construction has twice as many tiles as
symbols. -/
theorem flatMap_pair_length : ∀ (sy : List String),
    (sy.flatMap fun sym => [sym, sym]).length = 2 * sy.length
  | [] => rfl
  | sym :: tail => by
    simp only [List.flatMap_cons, List.length_append, List.length_cons,
      List.length_nil, flatMap_pair_length tail]
    omega

/-- Length of the pre-shuffle tile list: two tiles per chosen symbol. -/
theorem pre_length (sy : List String) :
    (sy.enum.flatMap fun p =>
      [Tile.mk (p.2 ++ "-a-" ++ toString p.1) p.2,
       Tile.mk (p.2 ++ "-b-" ++ toString p.1) p.2]).length = 2 * sy.length := by
  have h1 := congrArg List.length (map_s_pairs_enum sy)
  simp only [List.length_map] at h1
  rw [h1, flatMap_pair_length]

/-- The final `slice(0, total)` of `makeDeck` is the identity: the shuffled
tile list already has exactly `total` elements. -/
theorem makeDeck_eq (r1 : Nat → Nat → Nat) (r2 : Nat → Nat) (d : DiffKey) :
    makeDeck r1 r2 d =
      shuffle r2 ((ensureLength r1 SYMBOL_POOLS ((DIFFICULTIES d).total / 2)).enum.flatMap
        fun p => [Tile.mk (p.2 ++ "-a-" ++ toString p.1) p.2,
                  Tile.mk (p.2 ++ "-b-" ++ toString p.1) p.2]) := by
  unfold makeDeck
  dsimp only
  apply List.take_of_length_le
  rw [shuffle_length, pre_length,
    ensureLength_length r1 SYMBOL_POOLS _ (by decide)]
  cases d <;> decide

/-- C2 (amended): for every difficulty and every outcome of the random
draws, `makeDeck` yields exactly `total` tiles, `total` is even, and the
deck's symbols are exactly the `total / 2` chosen symbols duplicated (two
tiles per chosen-symbol occurrence).  The chosen symbols are, however, not
always pairwise distinct — `SYMBOL_POOLS` itself contains "✷" twice — so
"exactly two tiles per distinct symbol" fails for draws that pick both
occurrences (see the counterexample). -/
theorem makeDeck_pairs (r1 : Nat → Nat → Nat) (r2 : Nat → Nat) (d : DiffKey) :
    (makeDeck r1 r2 d).length = (DIFFICULTIES d).total ∧
    (DIFFICULTIES d).total % 2 = 0 ∧
    ((makeDeck r1 r2 d).map Tile.s).Perm
      ((ensureLength r1 SYMBOL_POOLS ((DIFFICULTIES d).total / 2)).flatMap
        (fun sym => [sym, sym])) := by
  have hpool : 0 < SYMBOL_POOLS.length := by decide
  have heven : 2 * ((DIFFICULTIES d).total / 2) = (DIFFICULTIES d).total := by
    cases d <;> rfl
  have hsl : (ensureLength r1 SYMBOL_POOLS ((DIFFICULTIES d).total / 2)).length
      = (DIFFICULTIES d).total / 2 :=
    ensureLength_length r1 SYMBOL_POOLS _ hpool
  refine ⟨?_, by cases d <;> rfl, ?_⟩
  · rw [makeDeck_eq, shuffle_length, pre_length, hsl, heven]
  · rw [makeDeck_eq, ← map_s_pairs_enum]
    exact (shuffle_perm r2 _).map Tile.s

set_option maxRecDepth 8000 in
/-- C2 counterexample: under the draw `dupChoices` the easy deck picks both
pool occurrences of "✷", so the deck holds four tiles of that symbol —
refuting "exactly two tiles per distinct symbol" and the pairwise
distinctness of the chosen symbols. -/
theorem makeDeck_dup_symbol :
    "✷" ∈ (makeDeck dupChoices idr .easy).map Tile.s ∧
    (makeDeck dupChoices idr .easy).countP (fun t => t.s == "✷") = 4 ∧
    ¬ (∀ sym ∈ (makeDeck dupChoices idr .easy).map Tile.s,
        (makeDeck dupChoices idr .easy).countP (fun t => t.s == sym) = 2) := by
  refine ⟨by decide, by decide, fun hall => ?_⟩
  have h2 := hall "✷" (by decide)
  have h4 : (makeDeck dupChoices idr .easy).countP (fun t => t.s == "✷") = 4 := by
    decide
  omega

/-! ### Claim C10 -/

/-- Every symbol of the source alphabet is a single character. -/
theorem pool_single_char : ∀ x ∈ SYMBOL_POOLS, x.data.length = 1 := by decide

/-- Decimal rendering is injective on the indices a deck can use (at most
18 pairs in the largest difficulty). -/
theorem tostr_inj :
    ∀ i < 18, ∀ j < 18, toString (i : Nat) = toString (j : Nat) → i = j := by
  decide

/-- Membership in `enumFrom` bounds the index and projects to membership. -/
theorem mem_enumFrom_facts :
    ∀ (l : List α) (n : Nat) (p : Nat × α),
      p ∈ l.enumFrom n → p.1 < n + l.length ∧ p.2 ∈ l
  | [], _, p, hp => by simp [List.enumFrom] at hp
  | x :: xs, n, p, hp => by
    simp only [List.enumFrom, List.mem_cons] at hp
    rcases hp with hp | hp
    · subst hp
      simp
    · have h2 := mem_enumFrom_facts xs (n + 1) p hp
      refine ⟨?_, List.mem_cons_of_mem x h2.2⟩
      have := h2.1
      simp only [List.length_cons]
      omega

/-- Character decomposition of a generated tile id. -/
theorem idA_data (s : String) (i : Nat) :
    (s ++ "-a-" ++ toString i).data =
      s.data ++ '-' :: 'a' :: '-' :: (toString i).data := by
  have h : ("-a-" : String).data = ['-', 'a', '-'] := by decide
  simp [String.data_append, h]

/-- Character decomposition of a generated tile id, second tile of the
pair. -/
theorem idB_data (s : String) (i : Nat) :
    (s ++ "-b-" ++ toString i).data =
      s.data ++ '-' :: 'b' :: '-' :: (toString i).data := by
  have h : ("-b-" : String).data = ['-', 'b', '-'] := by decide
  simp [String.data_append, h]

/-- Two generated ids with single-character symbols agree on tag and
rendered index as soon as their character lists agree. -/
theorem id_inj_aux (s t : String) (i j : Nat) (tagA tagB : Char)
    (hs : s.data.length = 1) (ht : t.data.length = 1)
    (h : s.data ++ '-' :: tagA :: '-' :: (toString i).data =
         t.data ++ '-' :: tagB :: '-' :: (toString j).data) :
    tagA = tagB ∧ toString (i : Nat) = toString (j : Nat) := by
  obtain ⟨c, hc⟩ := List.length_eq_one.mp hs
  obtain ⟨c2, hc2⟩ := List.length_eq_one.mp ht
  rw [hc, hc2] at h
  simp only [List.cons_append, List.nil_append, List.cons.injEq] at h
  exact ⟨h.2.2.1, String.ext h.2.2.2.2⟩

/-- The ids of the pre-shuffle tile list are pairwise distinct: the pair
index is embedded in each id, so even a repeated symbol cannot collide. -/
theorem pre_ids_nodup (sy : List String)
    (hchar : ∀ x ∈ sy, x.data.length = 1) (hlen : sy.length ≤ 18) :
    ((sy.enum.flatMap fun p =>
      [Tile.mk (p.2 ++ "-a-" ++ toString p.1) p.2,
       Tile.mk (p.2 ++ "-b-" ++ toString p.1) p.2]).map Tile.id).Nodup := by
  rw [List.map_flatMap]
  have hfacts : ∀ p : Nat × String, p ∈ sy.enum →
      p.1 < 18 ∧ p.2.data.length = 1 := by
    intro p hp
    have h2 := mem_enumFrom_facts sy 0 p hp
    exact ⟨by omega, hchar p.2 h2.2⟩
  rw [List.nodup_flatMap]
  constructor
  · intro p hp
    obtain ⟨hplt, hpc⟩ := hfacts p hp
    simp only [List.map_cons, List.map_nil, List.nodup_cons, List.mem_singleton,
      List.not_mem_nil, not_false_iff, and_true, List.nodup_nil]
    intro he
    have hd := congrArg String.data he
    rw [idA_data, idB_data] at hd
    have := (id_inj_aux p.2 p.2 p.1 p.1 'a' 'b' hpc hpc hd).1
    simp at this
  · have hfst : List.Pairwise (fun p q : Nat × String => p.1 ≠ q.1) sy.enum :=
      List.pairwise_map.mp (List.nodup_enum_map_fst sy)
    refine hfst.imp_of_mem ?_
    intro p q hp hq hne
    obtain ⟨hplt, hpc⟩ := hfacts p hp
    obtain ⟨hqlt, hqc⟩ := hfacts q hq
    intro x hxp hxq
    simp only [List.map_cons, List.map_nil, List.mem_cons, List.mem_singleton,
      List.not_mem_nil, or_false] at hxp hxq
    have heq : ∀ (tp tq : Char),
        p.2.data ++ '-' :: tp :: '-' :: (toString p.1).data =
          q.2.data ++ '-' :: tq :: '-' :: (toString q.1).data → False := by
      intro tp tq hd
      have h3 := (id_inj_aux p.2 q.2 p.1 q.1 tp tq hpc hqc hd).2
      exact hne (tostr_inj p.1 hplt q.1 hqlt h3)
    rcases hxp with hxp | hxp <;> rcases hxq with hxq | hxq
    · exact heq 'a' 'a' (by rw [← idA_data, ← idA_data, ← hxp, ← hxq])
    · exact heq 'a' 'b' (by rw [← idA_data, ← idB_data, ← hxp, ← hxq])
    · exact heq 'b' 'a' (by rw [← idB_data, ← idA_data, ← hxp, ← hxq])
    · exact heq 'b' 'b' (by rw [← idB_data, ← idB_data, ← hxp, ← hxq])

/-- C10: in every deck `makeDeck` can produce — all difficulties, all
random draws — the tile ids are pairwise distinct: each id embeds the
index of its symbol slot, so ids stay unique even when the same symbol
string is chosen for more than one pair. -/
theorem makeDeck_ids_nodup (r1 : Nat → Nat → Nat) (r2 : Nat → Nat) (d : DiffKey) :
    ((makeDeck r1 r2 d).map Tile.id).Nodup := by
  have hchar : ∀ x ∈ ensureLength r1 SYMBOL_POOLS ((DIFFICULTIES d).total / 2),
      x.data.length = 1 := fun x hx =>
    pool_single_char x (ensureLength_subset r1 SYMBOL_POOLS _ x hx)
  have hlen : (ensureLength r1 SYMBOL_POOLS ((DIFFICULTIES d).total / 2)).length
      ≤ 18 := by
    rw [ensureLength_length r1 SYMBOL_POOLS _ (by decide)]
    cases d <;> decide
  have hpre := pre_ids_nodup _ hchar hlen
  rw [makeDeck_eq]
  have hperm := (shuffle_perm r2
    ((ensureLength r1 SYMBOL_POOLS ((DIFFICULTIES d).total / 2)).enum.flatMap
      fun p => [Tile.mk (p.2 ++ "-a-" ++ toString p.1) p.2,
                Tile.mk (p.2 ++ "-b-" ++ toString p.1) p.2])).map Tile.id
  exact hperm.nodup_iff.mpr hpre

/-! ### Claim C7 -/

/-- Both resolution branches clear `revealed`. -/
theorem fireResolution_revealed (rand : Nat → Nat) (p : Pending) (s : RoundState) :
    (fireResolution rand p s).revealed = [] := by
  unfold fireResolution
  split
  · dsimp only
    split <;> rfl
  · rfl

/-- A match resolution appends exactly the two captured ids. -/
theorem fireResolution_matchedIds_match (rand : Nat → Nat) (p : Pending)
    (s : RoundState) (hm : p.isMatch = true) :
    (fireResolution rand p s).matchedIds = s.matchedIds ++ [p.aId, p.bId] := by
  unfold fireResolution
  rw [if_pos hm]
  dsimp only
  split <;> rfl

/-- A mismatch resolution leaves `matchedIds` unchanged. -/
theorem fireResolution_matchedIds_mismatch (rand : Nat → Nat) (p : Pending)
    (s : RoundState) (hm : p.isMatch = false) :
    (fireResolution rand p s).matchedIds = s.matchedIds := by
  unfold fireResolution
  rw [if_neg (by simp [hm])]

/-- `tick` never touches `matchedIds`. -/
theorem tick_matchedIds (d : DiffKey) (s : RoundState) :
    (tick d s).matchedIds = s.matchedIds := by
  unfold tick
  split
  · rw [applyEffects_matchedIds]
  · rfl

/-- `tick` never touches `revealed`. -/
theorem tick_revealed (d : DiffKey) (s : RoundState) :
    (tick d s).revealed = s.revealed := by
  unfold tick
  split
  · rw [applyEffects_revealed]
  · rfl

/-- `tick` never touches `lock`. -/
theorem tick_lock (d : DiffKey) (s : RoundState) :
    (tick d s).lock = s.lock := by
  unfold tick
  split
  · rw [applyEffects_lock]
  · rfl

/-- A successful `flip` never changes `matchedIds`. -/
theorem flip_matchedIds (d : DiffKey) (s : RoundState) (cardId : String)
    (out : RoundState × Option Pending) (h : flip d s cardId = some out) :
    out.1.matchedIds = s.matchedIds := by
  rcases flip_inversion d s cardId out h with
    ⟨he, _⟩ | ⟨_, _, _, he⟩ | ⟨r0, a, b, _, _, _, _, _, _, he⟩ <;> rw [he]

/-- The invariant holds only through field equalities. -/
theorem inv_transfer (sys sys2 : Sys) (hinv : Inv sys)
    (hp : sys2.pendings = sys.pendings) (hl : sys2.st.lock = sys.st.lock)
    (hm : sys2.st.matchedIds = sys.st.matchedIds)
    (hr : sys2.st.revealed = sys.st.revealed) : Inv sys2 := by
  obtain ⟨h1, h2, h3⟩ := hinv
  refine ⟨?_, ?_, ?_⟩
  · rw [hp, hl]
    exact h1
  · rw [hp, hm]
    exact h2
  · rw [hr, hm]
    exact h3

/-- A fresh round satisfies the invariant. -/
theorem inv_init (d : DiffKey) (r1 : Nat → Nat → Nat) (r2 : Nat → Nat) :
    Inv (initSys d r1 r2) := by
  refine ⟨Or.inl rfl, ?_, ?_⟩ <;> simp [initSys, freshRound]

/-- Every in-round command (no restart) preserves the invariant. -/
theorem inv_step (sys : Sys) (c : Cmd) (sys2 : Sys) (hinv : Inv sys)
    (hns : isStartCmd c = false) (h : stepCmd c sys = some sys2) : Inv sys2 := by
  cases c with
  | start d r1 r2 => simp [isStartCmd] at hns
  | tickCmd =>
    simp only [stepCmd, Option.some.injEq] at h
    refine inv_transfer sys sys2 hinv ?_ ?_ ?_ ?_ <;>
      rw [← h] <;> simp [tick_matchedIds, tick_revealed, tick_lock]
  | reshuffle rand =>
    simp only [stepCmd, Option.some.injEq] at h
    refine inv_transfer sys sys2 hinv ?_ ?_ ?_ ?_ <;> rw [← h]
  | fire rand =>
    simp only [stepCmd] at h
    rcases hp : sys.pendings with _ | ⟨p, rest⟩
    · rw [hp] at h
      simp only [Option.some.injEq] at h
      exact h ▸ hinv
    · rw [hp] at h
      simp only [Option.some.injEq] at h
      obtain ⟨h1, h2, h3⟩ := hinv
      have hrest : rest = [] := by
        rcases h1 with h1 | ⟨_, q, hq⟩
        · rw [hp] at h1
          cases h1
        · rw [hp] at hq
          simp only [List.cons.injEq] at hq
          exact hq.2
      refine ⟨Or.inl ?_, ?_, ?_⟩
      · rw [← h]
        exact hrest
      · rw [← h]
        dsimp only
        rw [hrest]
        intro q hq
        cases hq
      · rw [← h]
        dsimp only
        rw [applyEffects_revealed, fireResolution_revealed]
        intro x hx
        cases hx
  | flipCmd cardId =>
    simp only [stepCmd] at h
    rcases hflip : flip sys.diff sys.st cardId with _ | out
    · rw [hflip] at h
      simp at h
    · rw [hflip] at h
      simp only [Option.some.injEq] at h
      obtain ⟨h1, h2, h3⟩ := hinv
      rcases flip_inversion sys.diff sys.st cardId out hflip with
        ⟨he, _⟩ | ⟨hlock, hrev, hcont, he⟩ |
        ⟨r0, a, b, hlock, hrev, hne, hcont, hfa, hfb, he⟩
      · refine inv_transfer sys sys2 ⟨h1, h2, h3⟩ ?_ ?_ ?_ ?_ <;> rw [← h, he] <;>
          try simp [applyEffects_revealed, applyEffects_matchedIds, applyEffects_lock]
      · -- first reveal: no pending exists (lock is false), revealed = [cardId]
        have hpend : sys.pendings = [] := by
          rcases h1 with h1 | ⟨hl, _⟩
          · exact h1
          · rw [hlock] at hl
            cases hl
        refine ⟨Or.inl ?_, ?_, ?_⟩
        · rw [← h, he]
          simp [hpend]
        · rw [← h, he]
          simp [hpend]
        · rw [← h, he]
          dsimp only
          rw [applyEffects_revealed, applyEffects_matchedIds]
          intro x hx
          simp only [List.mem_singleton] at hx
          subst hx
          simpa using hcont
      · -- completed pair: one new pending, locked
        have hpend : sys.pendings = [] := by
          rcases h1 with h1 | ⟨hl, _⟩
          · exact h1
          · rw [hlock] at hl
            cases hl
        have haid : a.id = r0 := by
          have := List.find?_some hfa
          simpa using this
        have hbid : b.id = cardId := by
          have := List.find?_some hfb
          simpa using this
        have hr0mem : r0 ∈ sys.st.revealed := by
          rw [hrev]
          simp
        have hr0nm : r0 ∉ sys.st.matchedIds := h3 r0 hr0mem
        have hcnm : cardId ∉ sys.st.matchedIds := by
          simpa using hcont
        refine ⟨Or.inr ⟨?_, ?_⟩, ?_, ?_⟩
        · rw [← h, he]
          dsimp only
          rw [applyEffects_lock]
        · have hpp : sys2.pendings =
              [{ isMatch := a.s == b.s, aId := a.id, bId := b.id,
                 capMoves := sys.st.moves, capRevealed := [r0],
                 capMatched := sys.st.matchedIds,
                 capShuffleOn := (DIFFICULTIES sys.diff).shuffleOn }] := by
            rw [← h, he]
            dsimp only
            rw [hpend]
            rfl
          exact ⟨_, hpp⟩
        · rw [← h, he]
          dsimp only
          rw [applyEffects_matchedIds]
          intro q hq
          rw [hpend] at hq
          simp only [List.nil_append, Option.toList_some, List.mem_singleton] at hq
          subst hq
          dsimp only
          rw [haid, hbid]
          exact ⟨fun hx => hne hx.symm, hr0nm, hcnm⟩
        · rw [← h, he]
          dsimp only
          rw [applyEffects_revealed, applyEffects_matchedIds]
          intro x hx
          simp only [List.mem_cons, List.mem_singleton, List.not_mem_nil,
            or_false] at hx
          rcases hx with hx | hx
          · subst hx
            exact hr0nm
          · subst hx
            exact hcnm

/-- The invariant holds at the end of every in-round run. -/
theorem run_inv :
    ∀ (cmds : List Cmd) (sys sys2 : Sys),
      (∀ c ∈ cmds, isStartCmd c = false) → Inv sys →
      run sys cmds = some sys2 → Inv sys2
  | [], sys, sys2, _, hinv, h => by
    simp only [run, Option.some.injEq] at h
    exact h ▸ hinv
  | c :: cs, sys, sys2, hns, hinv, h => by
    simp only [run] at h
    rcases hstep : stepCmd c sys with _ | sys1
    · rw [hstep] at h
      simp at h
    · rw [hstep] at h
      exact run_inv cs sys1 sys2 (fun q hq => hns q (List.mem_cons_of_mem c hq))
        (inv_step sys c sys1 hinv (hns c (List.mem_cons_self c cs)) hstep) h

/-- Appending two fresh distinct ids grows the id set by exactly two. -/
theorem toFinset_card_append_two (l : List String) (a b : String)
    (ha : a ∉ l) (hb : b ∉ l) (hab : a ≠ b) :
    (l ++ [a, b]).toFinset.card = l.toFinset.card + 2 := by
  have hset : (l ++ [a, b]).toFinset = insert a (insert b l.toFinset) := by
    ext x
    simp only [List.mem_toFinset, List.mem_append, List.mem_cons,
      List.not_mem_nil, or_false, Finset.mem_insert]
    tauto
  rw [hset, Finset.card_insert_of_not_mem, Finset.card_insert_of_not_mem]
  · simpa using hb
  · simp only [Finset.mem_insert, List.mem_toFinset]
    rintro (hx | hx)
    · exact hab hx
    · exact ha hx

/-- No in-round command removes an id from `matchedIds`. -/
theorem stepCmd_matched_mono (sys : Sys) (c : Cmd) (sys2 : Sys)
    (hns : isStartCmd c = false) (h : stepCmd c sys = some sys2) :
    ∀ x ∈ sys.st.matchedIds, x ∈ sys2.st.matchedIds := by
  cases c with
  | start d r1 r2 => simp [isStartCmd] at hns
  | tickCmd =>
    simp only [stepCmd, Option.some.injEq] at h
    rw [← h]
    dsimp only
    rw [tick_matchedIds]
    exact fun x hx => hx
  | reshuffle rand =>
    simp only [stepCmd, Option.some.injEq] at h
    rw [← h]
    exact fun x hx => hx
  | fire rand =>
    simp only [stepCmd] at h
    rcases hp : sys.pendings with _ | ⟨p, rest⟩
    · rw [hp] at h
      simp only [Option.some.injEq] at h
      rw [← h]
      exact fun x hx => hx
    · rw [hp] at h
      simp only [Option.some.injEq] at h
      rw [← h]
      dsimp only
      rw [applyEffects_matchedIds]
      cases hm : p.isMatch with
      | true =>
        rw [fireResolution_matchedIds_match rand p sys.st hm]
        exact fun x hx => List.mem_append.mpr (Or.inl hx)
      | false =>
        rw [fireResolution_matchedIds_mismatch rand p sys.st hm]
        exact fun x hx => hx
  | flipCmd cardId =>
    simp only [stepCmd] at h
    rcases hflip : flip sys.diff sys.st cardId with _ | out
    · rw [hflip] at h
      simp at h
    · rw [hflip] at h
      simp only [Option.some.injEq] at h
      rw [← h]
      dsimp only
      rw [applyEffects_matchedIds, flip_matchedIds sys.diff sys.st cardId out hflip]
      exact fun x hx => hx

/-- C7: on any state a round can reach without restarting, `matchedIds`
never loses an id under any in-round command; firing a pending match
resolution grows the set `matchedIds` by exactly two ids and clears
`revealedIds`; firing a pending mismatch resolution leaves `matchedIds`
unchanged and clears `revealedIds`. -/
theorem match_resolution_adds_two (d : DiffKey) (r1 : Nat → Nat → Nat)
    (r2 : Nat → Nat) (cmds : List Cmd) (sys : Sys)
    (hnr : ∀ c ∈ cmds, isStartCmd c = false)
    (hrun : run (initSys d r1 r2) cmds = some sys) :
    (∀ (c : Cmd) (sys2 : Sys), isStartCmd c = false → stepCmd c sys = some sys2 →
      ∀ x ∈ sys.st.matchedIds, x ∈ sys2.st.matchedIds) ∧
    (∀ (rand : Nat → Nat) (p : Pending) (rest : List Pending),
      sys.pendings = p :: rest → p.isMatch = true →
      (applyEffects sys.diff (fireResolution rand p sys.st)).matchedIds.toFinset.card
        = sys.st.matchedIds.toFinset.card + 2 ∧
      (applyEffects sys.diff (fireResolution rand p sys.st)).revealed = []) ∧
    (∀ (rand : Nat → Nat) (p : Pending) (rest : List Pending),
      sys.pendings = p :: rest → p.isMatch = false →
      (applyEffects sys.diff (fireResolution rand p sys.st)).matchedIds
        = sys.st.matchedIds ∧
      (applyEffects sys.diff (fireResolution rand p sys.st)).revealed = []) := by
  have hinv := run_inv cmds (initSys d r1 r2) sys hnr (inv_init d r1 r2) hrun
  refine ⟨fun c sys2 hc h => stepCmd_matched_mono sys c sys2 hc h, ?_, ?_⟩
  · intro rand p rest hp hm
    have hpfacts := hinv.2.1 p (by rw [hp]; exact List.mem_cons_self p rest)
    constructor
    · rw [applyEffects_matchedIds, fireResolution_matchedIds_match rand p sys.st hm]
      exact toFinset_card_append_two sys.st.matchedIds p.aId p.bId
        hpfacts.2.1 hpfacts.2.2 hpfacts.1
    · rw [applyEffects_revealed, fireResolution_revealed]
  · intro rand p rest hp hm
    exact ⟨by rw [applyEffects_matchedIds,
        fireResolution_matchedIds_mismatch rand p sys.st hm],
      by rw [applyEffects_revealed, fireResolution_revealed]⟩

set_option maxRecDepth 8000 in
/-- Witness for C7: firing the concrete pending match of `sysW` (reached
by two flips from a fresh easy round) takes the matched-id set from zero
to two ids and clears `revealedIds`. -/
theorem match_resolution_adds_two_witness :
    (applyEffects sysW.diff (fireResolution idr pendingW sysW.st)).matchedIds.toFinset.card
      = sysW.st.matchedIds.toFinset.card + 2 ∧
    (applyEffects sysW.diff (fireResolution idr pendingW sysW.st)).revealed = [] :=
  (match_resolution_adds_two .easy idr2 idr
    [Cmd.flipCmd "●-a-0", Cmd.flipCmd "●-b-0"] sysW (by decide) (by decide)).2.1
    idr pendingW [] rfl rfl

end SnapMatch
